import Mathlib

/-!
Shallow embedding of the document-analytics pipeline of `src/pdf_dashboard.py`
(PDF-Summarizer).  Python strings are modelled as Lean `String`/`List Char`
with ASCII semantics for the character-class predicates; Python dicts and
`collections.Counter` are modelled as insertion-ordered association lists;
pandas dataframes are modelled column-major with an explicit dtype tag; the
external NLTK capabilities (sentence splitter, word tokenizer, lemmatizer) are
parameters, as §4.2 of the spec prescribes; the NLTK English stopword list is
embedded literally.  `try/except` bodies are modelled with `Except`.
-/

namespace PdfDashboard

/-! ### Python string primitives (ASCII model)

`isPySpace` models the regex class `\s`, `isPyWordChar` models `\w`
(restricted to ASCII). -/

def isPySpace (c : Char) : Bool :=
  c = ' ' || c = '\t' || c = '\n' || c = '\r' || c = '\x0b' || c = '\x0c'

def isPyWordChar (c : Char) : Bool :=
  c.isAlphanum || c = '_'

/-- The character class kept by `re.sub(r'[^\w\s\.\,\!\?\;\:\-\(\)]', '', text)`
in `clean_text` (src/pdf_dashboard.py:116). -/
def allowedChar (c : Char) : Bool :=
  isPyWordChar c || isPySpace c || c = '.' || c = ',' || c = '!' || c = '?' ||
    c = ';' || c = ':' || c = '-' || c = '(' || c = ')'

/-- Worker for `re.sub(r'\s+', ' ', text)`: replaces every maximal run of
whitespace by a single `' '`.  The flag records whether we are inside a
whitespace run. -/
def collapseGo (inRun : Bool) : List Char → List Char
  | [] => []
  | c :: rest =>
    if isPySpace c then
      if inRun then collapseGo true rest else ' ' :: collapseGo true rest
    else
      c :: collapseGo false rest

def collapseWs (l : List Char) : List Char :=
  collapseGo false l

/-- Python `str.strip()` from the left: drop leading whitespace. -/
def lstripWs (l : List Char) : List Char :=
  l.dropWhile isPySpace

/-- Python `str.strip()` from the right: drop trailing whitespace. -/
def rstripWs : List Char → List Char
  | [] => []
  | c :: rest =>
    match rstripWs rest with
    | [] => if isPySpace c then [] else [c]
    | r => c :: r

def stripWs (l : List Char) : List Char :=
  rstripWs (lstripWs l)

/-- `clean_text` on the character-list level: collapse whitespace runs to one
space, delete characters outside the allowed class, strip both ends
(src/pdf_dashboard.py:109-117). -/
def cleanChars (l : List Char) : List Char :=
  stripWs ((collapseWs l).filter allowedChar)

/-- `clean_text(text)` (src/pdf_dashboard.py:109-117).  The `if not text`
guard maps the empty string to the empty string. -/
def clean_text (text : String) : String :=
  if text = "" then "" else String.mk (cleanChars text.data)

/-- `true` when the list is empty or its head is not whitespace. -/
def headNS : List Char → Bool
  | [] => true
  | c :: _ => !isPySpace c

/-- `true` when the list is empty or its last element is not whitespace. -/
def lastNS (l : List Char) : Bool :=
  match l.getLast? with
  | none => true
  | some c => !isPySpace c

/-- No two adjacent whitespace characters. -/
def noWsRun : List Char → Bool
  | [] => true
  | [_] => true
  | a :: b :: rest => !(isPySpace a && isPySpace b) && noWsRun (b :: rest)

/-! ### Generic stable insertion sorts

CPython's `sorted` is stable; `sorted(key=…, reverse=True)` keeps elements
with equal keys in their original order, as does `heapq.nlargest` (documented
as equivalent to `sorted(..., reverse=True)[:n]`, which `Counter.most_common`
uses).  For a total preorder comparator every stable sort produces the same
output, so a stable insertion sort is an exact model. -/

/-- Insert `x` into a descending-sorted list, after all elements whose key is
`≥ key x` (stability). -/
def insDesc (key : α → Nat) (x : α) : List α → List α
  | [] => [x]
  | y :: rest => if key y < key x then x :: y :: rest else y :: insDesc key x rest

/-- Stable sort, key descending: Python `sorted(l, key=key, reverse=True)`. -/
def sortDesc (key : α → Nat) (l : List α) : List α :=
  l.foldl (fun acc x => insDesc key x acc) []

/-- Insert `x` into an ascending-sorted list, after all elements whose key is
`≤ key x` (stability). -/
def insAsc (key : α → Nat) (x : α) : List α → List α
  | [] => [x]
  | y :: rest => if key x < key y then x :: y :: rest else y :: insAsc key x rest

/-- Stable sort, key ascending: Python `sorted(l, key=key)`. -/
def sortAsc (key : α → Nat) (l : List α) : List α :=
  l.foldl (fun acc x => insAsc key x acc) []

/-! ### Python dict / Counter as insertion-ordered association lists -/

/-- `d[k] = v` on an insertion-ordered dict: overwrite in place when the key
exists, else append. -/
def dictSet (k : String) (v : Nat) : List (String × Nat) → List (String × Nat)
  | [] => [(k, v)]
  | p :: rest => if p.1 = k then (k, v) :: rest else p :: dictSet k v rest

/-- One `Counter` increment: bump the entry in place, or append `(k, 1)`. -/
def bumpCount : List (String × Nat) → String → List (String × Nat)
  | [], k => [(k, 1)]
  | p :: rest, k => if p.1 = k then (p.1, p.2 + 1) :: rest else p :: bumpCount rest k

/-- `collections.Counter(tokens)`: counts with keys in first-occurrence
order. -/
def counterList (l : List String) : List (String × Nat) :=
  l.foldl bumpCount []

/-! ### Shared text helpers -/

/-- Python `str.lower()` (ASCII model), computed on the character list. -/
def pyLower (s : String) : String :=
  String.mk (s.data.map Char.toLower)

/-- Python `str.isalnum()` (ASCII model): nonempty and all alphanumeric. -/
def pyIsAlnum (s : String) : Bool :=
  !s.isEmpty && s.data.all Char.isAlphanum

/-! ### Summarizer (`generate_summary`, src/pdf_dashboard.py:139-160)

The external NLTK capabilities `sent_tokenize` and `word_tokenize` are
parameters `ss` and `tok`. -/

/-- Score of one sentence: sum of whole-text frequencies of its alphanumeric
lowercased tokens (line 153). -/
def sentenceScore (tok : String → List String) (freq : List String) (s : String) : Nat :=
  (((tok (pyLower s)).filter pyIsAlnum).map (fun w => freq.count w)).sum

/-- The `sentence_scores` dict built by the loop on lines 150-154: keyed by
sentence text, insertion order = first-occurrence order. -/
def sentenceScoresOf (ss tok : String → List String) (text : String) : List (String × Nat) :=
  (ss text).foldl (fun acc s => dictSet s (sentenceScore tok (tok (pyLower text)) s) acc) []

/-- The list of summary sentences selected by `generate_summary`:
take the `maxS` highest-scoring entries (stable descending sort, line 157),
then re-sort them by `sentences.index(·)` (line 158). -/
def summaryList (ss tok : String → List String) (text : String) (maxS : Nat) : List String :=
  if text = "" then []
  else
    (sortAsc (fun p : String × Nat => (ss text).indexOf p.1)
        ((sortDesc (fun p : String × Nat => p.2) (sentenceScoresOf ss tok text)).take maxS)).map
      Prod.fst

/-- `generate_summary(text, max_sentences)`: the selected sentences joined
with a single space (line 160); empty text yields `""` (line 142). -/
def generate_summary (ss tok : String → List String) (text : String) (maxS : Nat) : String :=
  String.intercalate " " (summaryList ss tok text maxS)

/-! ### Keyword extraction (`extract_keywords`, src/pdf_dashboard.py:119-137) -/

/-- The NLTK English stopword list (`stopwords.words('english')`),
embedded literally. -/
def stopwordsEN : List String :=
  ["i", "me", "my", "myself", "we", "our", "ours", "ourselves", "you",
   "you\x27re", "you\x27ve", "you\x27ll", "you\x27d", "your", "yours",
   "yourself", "yourselves", "he", "him", "his", "himself", "she",
   "she\x27s", "her", "hers", "herself", "it", "it\x27s", "its", "itself",
   "they", "them", "their", "theirs", "themselves", "what", "which", "who",
   "whom", "this", "that", "that\x27ll", "these", "those", "am", "is",
   "are", "was", "were", "be", "been", "being", "have", "has", "had",
   "having", "do", "does", "did", "doing", "a", "an", "the", "and", "but",
   "if", "or", "because", "as", "until", "while", "of", "at", "by", "for",
   "with", "about", "against", "between", "into", "through", "during",
   "before", "after", "above", "below", "to", "from", "up", "down", "in",
   "out", "on", "off", "over", "under", "again", "further", "then", "once",
   "here", "there", "when", "where", "why", "how", "all", "any", "both",
   "each", "few", "more", "most", "other", "some", "such", "no", "nor",
   "not", "only", "own", "same", "so", "than", "too", "very", "s", "t",
   "can", "will", "just", "don", "don\x27t", "should", "should\x27ve",
   "now", "d", "ll", "m", "o", "re", "ve", "y", "ain", "aren",
   "aren\x27t", "couldn", "couldn\x27t", "didn", "didn\x27t", "doesn",
   "doesn\x27t", "hadn", "hadn\x27t", "hasn", "hasn\x27t", "haven",
   "haven\x27t", "isn", "isn\x27t", "ma", "mightn", "mightn\x27t",
   "mustn", "mustn\x27t", "needn", "needn\x27t", "shan", "shan\x27t",
   "shouldn", "shouldn\x27t", "wasn", "wasn\x27t", "weren", "weren\x27t",
   "won", "won\x27t", "wouldn", "wouldn\x27t"]

/-- The token filter on line 129: alphanumeric, not a stopword, and of
length `> 2`.  It is applied BEFORE lemmatization. -/
def keywordFilter (w : String) : Bool :=
  pyIsAlnum w && !(stopwordsEN.contains w) && decide (2 < w.length)

/-- The filtered `Counter` of lines 125-136: tokenize the lowercased text,
filter, lemmatize, count.  `lem` models the external `WordNetLemmatizer`. -/
def filteredCounter (tok : String → List String) (lem : String → String)
    (text : String) : List (String × Nat) :=
  counterList (((tok (pyLower text)).filter keywordFilter).map lem)

/-- `extract_keywords(text, top_n)`: `word_freq.most_common(top_n)`, i.e.
stable descending sort by count followed by `take top_n`;
empty text yields `[]` (lines 121-122). -/
def extract_keywords (tok : String → List String) (lem : String → String)
    (text : String) (topN : Nat) : List (String × Nat) :=
  if text = "" then []
  else (sortDesc (fun p : String × Nat => p.2) (filteredCounter tok lem text)).take topN

/-! ### Document statistics (`analyze_document_stats`, src/pdf_dashboard.py:162-178) -/

/-- Python `text.split('\n\n')` (character-list worker; the separator is the
fixed literal `"\n\n"`, matched greedily left to right). -/
def splitNN (acc : List Char) : List Char → List (List Char)
  | [] => [acc.reverse]
  | [c] => [(c :: acc).reverse]
  | a :: b :: rest =>
    if a = '\n' && b = '\n' then acc.reverse :: splitNN [] rest
    else splitNN (a :: acc) (b :: rest)

/-- Number of non-overlapping occurrences of `"\n\n"`, matched greedily left
to right. -/
def countNN : List Char → Nat
  | [] => 0
  | [_] => 0
  | a :: b :: rest =>
    if a = '\n' && b = '\n' then countNN rest + 1
    else countNN (b :: rest)

/-- Modelled from the spec (§4.5): the number of text blocks separated by a
literal blank line, i.e. one more than the number of `"\n\n"` separators. -/
def specParagraphCount (text : String) : Nat :=
  countNN text.data + 1

/-- The dict returned by `analyze_document_stats` for nonempty text
(lines 171-178). -/
structure DocStats where
  characters : Nat
  words : Nat
  sentences : Nat
  paragraphs : Nat
  avg_sentence_length : ℚ
  avg_word_length : ℚ
deriving DecidableEq

/-- `analyze_document_stats(text)`: `none` models the empty dict `{}`
returned for empty input (lines 164-165); otherwise all six fields are
computed.  The two averages carry Python's conditional-expression guards
(`... if sentences else 0`, `... if words else 0`). -/
def analyze_document_stats (ss tok : String → List String) (text : String) :
    Option DocStats :=
  if text = "" then none
  else
    let sentences := ss text
    let words := tok text
    some
      { characters := text.length
        words := words.length
        sentences := sentences.length
        paragraphs := (splitNN [] text.data).length
        avg_sentence_length :=
          if sentences.length = 0 then 0 else (words.length : ℚ) / (sentences.length : ℚ)
        avg_word_length :=
          if words.length = 0 then 0
          else (((words.map String.length).sum : ℚ) / (words.length : ℚ)) }

/-! ### Table extraction (`extract_tables_from_pdf`, src/pdf_dashboard.py:60-77)

A pdfplumber page is modelled by the outcome of its `extract_table()` call:
`Except.error e` when detection raises, `.ok none` when no table is found,
`.ok (some t)` for a detected table (header row + body rows).  The single
`try/except` wrapping the whole page loop is modelled by running an
exception-propagating loop and mapping any error to the empty dataset. -/

abbrev PdfTable := List (List (Option String))

/-- One body row of a detected table, with the header it was framed under and
its 1-based source page (`df['page'] = page_num + 1`, line 69). -/
structure ExtractedRow where
  header : List (Option String)
  cells : List (Option String)
  page : Nat
deriving DecidableEq

/-- Rows contributed by one page: `pd.DataFrame(table[1:], columns=table[0])`
plus the page column (lines 66-70); a table with no body rows contributes
nothing. -/
def pageRecords (pageIdx : Nat) : PdfTable → List ExtractedRow
  | [] => []
  | hdr :: body => body.map (fun r => ⟨hdr, r, pageIdx + 1⟩)

/-- The `for page in pdf.pages` loop (lines 65-70) with exception
propagation: a raise on any page aborts the loop. -/
def extractLoop : Nat → List (Except String (Option PdfTable)) →
    Except String (List ExtractedRow)
  | _, [] => .ok []
  | _, .error e :: _ => .error e
  | i, .ok none :: rest => extractLoop (i + 1) rest
  | i, .ok (some t) :: rest =>
    match extractLoop (i + 1) rest with
    | .error e => .error e
    | .ok tail => .ok (pageRecords i t ++ tail)

/-- `extract_tables_from_pdf`: the `except` branch (lines 75-77) turns any
raise into the empty dataframe. -/
def extract_tables_from_pdf (pages : List (Except String (Option PdfTable))) :
    List ExtractedRow :=
  match extractLoop 0 pages with
  | .ok rows => rows
  | .error _ => []

/-! ### Dataframe model for `transform_data` / `analyze_invoice_data`

Column-major, with pandas' per-column dtype as an explicit tag: in this
program numeric (`int64`) columns arise from `df['page'] = page_num + 1` and
database loads, object columns from pdfplumber's string/None cells.  A `none`
cell models NaN/None (a missing value). -/

inductive PdVal where
  | vInt : Int → PdVal
  | vStr : String → PdVal
deriving DecidableEq

abbrev PdCell := Option PdVal

inductive PdType where
  | tNum
  | tObj
deriving DecidableEq

structure PdCol where
  name : String
  dtype : PdType
  values : List PdCell
deriving DecidableEq

abbrev PdFrame := List PdCol

/-- Number of rows (columns of a frame are aligned). -/
def nRows : PdFrame → Nat
  | [] => 0
  | c :: _ => c.values.length

/-- pandas `df.empty`: no columns or no rows. -/
def pdEmpty (df : PdFrame) : Bool :=
  df.isEmpty || nRows df == 0

/-- `col.strip().lower().replace(" ", "_")` (line 85). -/
def normColName (s : String) : String :=
  String.mk ((stripWs s.data).map (fun c => if c = ' ' then '_' else c.toLower))

/-- One cell of `df.fillna("N/A")` (line 86): a missing cell becomes the
sentinel string. -/
def fillCell : PdCell → PdCell
  | none => some (.vStr "N/A")
  | some v => some v

/-- `transform_data(df)` (lines 79-87): empty frames pass through; otherwise
normalize the column names and fill missing cells. -/
def transform_data (df : PdFrame) : PdFrame :=
  if pdEmpty df then df
  else df.map (fun c => ⟨normColName c.name, c.dtype, c.values.map fillCell⟩)

/-- `true` exactly on cells holding an integer value. -/
def isIntCell : PdCell → Bool
  | some (.vInt _) => true
  | _ => false

/-- The integer values of a column (pandas aggregates skip missing cells). -/
def colInts (c : PdCol) : List Int :=
  c.values.filterMap (fun v => match v with | some (.vInt n) => some n | _ => none)

/-- pandas `df[col].nunique()`: number of distinct non-missing values. -/
def nuniqueCol (c : PdCol) : Nat :=
  (c.values.filterMap id).dedup.length

/-- The heterogeneous values stored in the `analysis` dict of
`analyze_invoice_data`. -/
inductive RVal where
  | rNames : List String → RVal
  | rInt : Int → RVal
  | rRat : ℚ → RVal
  | rIntOpt : Option Int → RVal
  | rNat : Nat → RVal
deriving DecidableEq

/-- `analyze_invoice_data(df)` (lines 180-206): `[]` models the empty dict
for an empty frame; otherwise sum/mean/min/max for each numeric-dtype column
(`select_dtypes(include=['number'])`), distinct-value counts for each
object-dtype column, then total row and column counts, in the dict's
insertion order. -/
def analyze_invoice_data (df : PdFrame) : List (String × RVal) :=
  if pdEmpty df then []
  else
    let numeric := df.filter (fun c => c.dtype == PdType.tNum)
    let categorical := df.filter (fun c => c.dtype == PdType.tObj)
    (if numeric.isEmpty then []
     else [("numeric_columns", RVal.rNames (numeric.map PdCol.name))]) ++
    (numeric.flatMap (fun c =>
      [(c.name ++ "_sum", RVal.rInt (colInts c).sum),
       (c.name ++ "_avg", RVal.rRat (((colInts c).sum : ℚ) / ((colInts c).length : ℚ))),
       (c.name ++ "_min", RVal.rIntOpt (colInts c).min?),
       (c.name ++ "_max", RVal.rIntOpt (colInts c).max?)])) ++
    categorical.map (fun c => (c.name ++ "_unique_count", RVal.rNat (nuniqueCol c))) ++
    [("total_rows", RVal.rNat (nRows df)), ("total_columns", RVal.rNat df.length)]

/-! ### Auxiliary relation for sort stability

`rankBefore key pos a b` holds when a stable descending sort by `key` of a
list in which `pos` gives the original positions must place `a` before `b`:
either `a` has the strictly larger key, or the keys tie and `a` came
first. -/

def rankBefore (key pos : α → Nat) (a b : α) : Prop :=
  key b < key a ∨ (key a = key b ∧ pos a < pos b)

/-- Position of an element in a list (`list.index(a)` for present elements),
with a fixed elaboration of the underlying equality test. -/
def posIn [DecidableEq α] (l : List α) (a : α) : Nat :=
  l.indexOf a

/-! ### Concrete fixtures used by witnesses and counterexamples -/

/-- A concrete word-tokenizer instance returning the whole text as the single
token. -/
def tokSelf : String → List String := fun s => [s]

/-- A concrete lemmatizer instance recording one actual behaviour of NLTK's
`WordNetLemmatizer`: `lemmatize("oxen") = "ox"` (irregular plural). -/
def lemOxen : String → String := fun w => if w = "oxen" then "ox" else w

/-- A concrete sentence splitter returning a duplicated sentence text. -/
def ssDup : String → List String := fun _ => ["A.", "A."]

/-- A concrete one-token word tokenizer. -/
def tokOne : String → List String := fun _ => ["a"]

/-- A detected table: header row plus one body row. -/
def tblA : PdfTable := [[some "h"], [some "r1"]]

/-- Another detected table: header row plus one body row. -/
def tblC : PdfTable := [[some "h"], [some "r3"]]

/-- A three-page document whose middle page's table detection raises. -/
def pagesFail : List (Except String (Option PdfTable)) :=
  [.ok (some tblA), .error "detection failed", .ok (some tblC)]

/-- The same document with no detection failure (no table on page 2). -/
def pagesOk : List (Except String (Option PdfTable)) :=
  [.ok (some tblA), .ok none, .ok (some tblC)]

/-- A frame with a missing cell and a space-bearing column name. -/
def dfMissing : PdFrame := [⟨"It em", .tObj, [none, some (.vStr "x")]⟩]

/-- A frame with one numeric (the page column) and one object column. -/
def dfMixed : PdFrame :=
  [⟨"page", .tNum, [some (.vInt 1), some (.vInt 2)]⟩,
   ⟨"item", .tObj, [some (.vStr "a"), some (.vStr "a")]⟩]

/-! ## Lemmas about `clean_text` (claim C3) -/

theorem noWsRun_cons (c : Char) (m : List Char) :
    noWsRun (c :: m) = ((!isPySpace c || headNS m) && noWsRun m) := by
  cases m with
  | nil => simp [noWsRun, headNS]
  | cons d t => simp [noWsRun, headNS, Bool.not_and, Bool.and_assoc]

theorem noWsRun_tail {c : Char} {m : List Char} (h : noWsRun (c :: m) = true) :
    noWsRun m = true := by
  rw [noWsRun_cons] at h
  exact Bool.and_elim_right h

theorem mem_collapseGo {c : Char} : ∀ (b : Bool) (l : List Char),
    c ∈ collapseGo b l → c = ' ' ∨ c ∈ l
  | _, [], h => by simp [collapseGo] at h
  | b, d :: rest, h => by
    by_cases hd : isPySpace d = true
    · cases b with
      | true =>
        simp [collapseGo, hd] at h
        rcases mem_collapseGo true rest h with h1 | h1
        · exact Or.inl h1
        · exact Or.inr (List.mem_cons_of_mem _ h1)
      | false =>
        simp [collapseGo, hd] at h
        rcases h with h1 | h1
        · exact Or.inl h1
        · rcases mem_collapseGo true rest h1 with h2 | h2
          · exact Or.inl h2
          · exact Or.inr (List.mem_cons_of_mem _ h2)
    · simp [collapseGo, hd] at h
      rcases h with h1 | h1
      · exact Or.inr (by simp [h1])
      · rcases mem_collapseGo false rest h1 with h2 | h2
        · exact Or.inl h2
        · exact Or.inr (List.mem_cons_of_mem _ h2)

theorem space_of_mem_collapseGo {c : Char} : ∀ (b : Bool) (l : List Char),
    c ∈ collapseGo b l → isPySpace c = true → c = ' '
  | _, [], h, _ => by simp [collapseGo] at h
  | b, d :: rest, h, hsp => by
    by_cases hd : isPySpace d = true
    · cases b with
      | true =>
        simp [collapseGo, hd] at h
        exact space_of_mem_collapseGo true rest h hsp
      | false =>
        simp [collapseGo, hd] at h
        rcases h with h1 | h1
        · exact h1
        · exact space_of_mem_collapseGo true rest h1 hsp
    · simp [collapseGo, hd] at h
      rcases h with h1 | h1
      · subst h1; simp [hd] at hsp
      · exact space_of_mem_collapseGo false rest h1 hsp

theorem headNS_collapseGo_true : ∀ l : List Char, headNS (collapseGo true l) = true
  | [] => by simp [collapseGo, headNS]
  | c :: rest => by
    by_cases hc : isPySpace c = true
    · simp only [collapseGo, hc, if_true]
      exact headNS_collapseGo_true rest
    · simp [collapseGo, hc, headNS]

theorem noWsRun_collapseGo : ∀ (b : Bool) (l : List Char), noWsRun (collapseGo b l) = true
  | _, [] => by simp [collapseGo, noWsRun]
  | b, c :: rest => by
    by_cases hc : isPySpace c = true
    · cases b with
      | true =>
        simp only [collapseGo, hc, if_true]
        exact noWsRun_collapseGo true rest
      | false =>
        have : collapseGo false (c :: rest) = ' ' :: collapseGo true rest := by
          simp [collapseGo, hc]
        rw [this, noWsRun_cons]
        refine Bool.and_eq_true_iff.mpr ⟨?_, noWsRun_collapseGo true rest⟩
        exact Bool.or_eq_true_iff.mpr (Or.inr (headNS_collapseGo_true rest))
    · have : collapseGo b (c :: rest) = c :: collapseGo false rest := by
        simp [collapseGo, hc]
      rw [this, noWsRun_cons]
      refine Bool.and_eq_true_iff.mpr ⟨?_, noWsRun_collapseGo false rest⟩
      exact Bool.or_eq_true_iff.mpr (Or.inl (by simp [hc]))

theorem collapseGo_true_eq_false {l : List Char} (h : headNS l = true) :
    collapseGo true l = collapseGo false l := by
  cases l with
  | nil => rfl
  | cons c rest =>
    simp only [headNS, Bool.not_eq_true'] at h
    simp [collapseGo, h]

theorem collapseGo_eq_self : ∀ l : List Char,
    (∀ c ∈ l, isPySpace c = true → c = ' ') → noWsRun l = true → collapseGo false l = l
  | [], _, _ => rfl
  | c :: rest, hsp, hrun => by
    have hrest : collapseGo false rest = rest :=
      collapseGo_eq_self rest (fun d hd => hsp d (List.mem_cons_of_mem _ hd))
        (noWsRun_tail hrun)
    by_cases hc : isPySpace c = true
    · have hc' : c = ' ' := hsp c (List.mem_cons_self _ _) hc
      have hhead : headNS rest = true := by
        rw [noWsRun_cons] at hrun
        have h2 := Bool.and_elim_left hrun
        rcases Bool.or_eq_true_iff.mp h2 with h1 | h1
        · simp [hc] at h1
        · exact h1
      have : collapseGo false (c :: rest) = ' ' :: collapseGo true rest := by
        simp [collapseGo, hc]
      rw [this, collapseGo_true_eq_false hhead, hrest, hc']
    · have : collapseGo false (c :: rest) = c :: collapseGo false rest := by
        simp [collapseGo, hc]
      rw [this, hrest]

theorem mem_lstrip {c : Char} {l : List Char} (h : c ∈ lstripWs l) : c ∈ l :=
  (List.dropWhile_sublist _).mem h

theorem headNS_lstrip : ∀ l : List Char, headNS (lstripWs l) = true
  | [] => rfl
  | c :: rest => by
    by_cases hc : isPySpace c = true
    · have : lstripWs (c :: rest) = lstripWs rest := by
        simp [lstripWs, List.dropWhile_cons, hc]
      rw [this]
      exact headNS_lstrip rest
    · have : lstripWs (c :: rest) = c :: rest := by
        simp [lstripWs, List.dropWhile_cons, hc]
      rw [this]
      simp [headNS, hc]

theorem noWsRun_lstrip : ∀ l : List Char, noWsRun l = true → noWsRun (lstripWs l) = true
  | [], h => h
  | c :: rest, h => by
    by_cases hc : isPySpace c = true
    · have : lstripWs (c :: rest) = lstripWs rest := by
        simp [lstripWs, List.dropWhile_cons, hc]
      rw [this]
      exact noWsRun_lstrip rest (noWsRun_tail h)
    · have : lstripWs (c :: rest) = c :: rest := by
        simp [lstripWs, List.dropWhile_cons, hc]
      rw [this]
      exact h

theorem lstrip_eq_self {l : List Char} (h : headNS l = true) : lstripWs l = l := by
  cases l with
  | nil => rfl
  | cons c rest =>
    simp only [headNS, Bool.not_eq_true'] at h
    simp [lstripWs, List.dropWhile_cons, h]

theorem mem_rstrip {c : Char} : ∀ l : List Char, c ∈ rstripWs l → c ∈ l
  | [], h => by simp [rstripWs] at h
  | d :: rest, h => by
    rw [rstripWs] at h
    rcases hr : rstripWs rest with _ | ⟨y, ys⟩
    · rw [hr] at h
      by_cases hd : isPySpace d = true
      · simp [hd] at h
      · simp [hd] at h
        simp [h]
    · rw [hr] at h
      rcases List.mem_cons.mp h with h1 | h1
      · simp [h1]
      · exact List.mem_cons_of_mem _ (mem_rstrip rest (hr ▸ h1))

theorem lastNS_rstrip : ∀ l : List Char, lastNS (rstripWs l) = true
  | [] => rfl
  | d :: rest => by
    rw [rstripWs]
    rcases hr : rstripWs rest with _ | ⟨y, ys⟩
    · by_cases hd : isPySpace d = true
      · simp [hd, lastNS]
      · simp [hd, lastNS, List.getLast?]
    · have ih := lastNS_rstrip rest
      rw [hr] at ih
      simpa [lastNS, List.getLast?_cons_cons] using ih

theorem headNS_rstrip {l : List Char} (h : headNS l = true) : headNS (rstripWs l) = true := by
  cases l with
  | nil => rfl
  | cons d rest =>
    rw [rstripWs]
    rcases rstripWs rest with _ | ⟨y, ys⟩
    · by_cases hd : isPySpace d = true
      · simp [hd, headNS]
      · simp [hd, headNS]
    · simpa [headNS] using h

theorem noWsRun_rstrip : ∀ l : List Char, noWsRun l = true → noWsRun (rstripWs l) = true
  | [], h => h
  | d :: rest, h => by
    rw [rstripWs]
    rcases hr : rstripWs rest with _ | ⟨y, ys⟩
    · by_cases hd : isPySpace d = true
      · simp [hd, noWsRun]
      · simp [hd, noWsRun]
    · have ih := noWsRun_rstrip rest (noWsRun_tail h)
      rw [hr] at ih
      rw [noWsRun_cons, Bool.and_eq_true_iff]
      refine ⟨?_, ih⟩
      rw [noWsRun_cons, Bool.and_eq_true_iff] at h
      rcases Bool.or_eq_true_iff.mp h.1 with h1 | h1
      · exact Bool.or_eq_true_iff.mpr (Or.inl h1)
      · have : headNS (rstripWs rest) = true := headNS_rstrip h1
        rw [hr] at this
        exact Bool.or_eq_true_iff.mpr (Or.inr this)

theorem rstrip_eq_self : ∀ l : List Char, lastNS l = true → rstripWs l = l
  | [], _ => rfl
  | d :: rest, h => by
    rw [rstripWs]
    cases rest with
    | nil =>
      simp only [lastNS, List.getLast?_singleton, Bool.not_eq_true'] at h
      simp [rstripWs, h]
    | cons y ys =>
      have htail : lastNS (y :: ys) = true := by
        simpa [lastNS, List.getLast?_cons_cons] using h
      have ih : rstripWs (y :: ys) = y :: ys := rstrip_eq_self (y :: ys) htail
      rw [ih]

theorem mem_strip {c : Char} {l : List Char} (h : c ∈ stripWs l) : c ∈ l :=
  mem_lstrip (mem_rstrip _ h)

theorem headNS_strip (l : List Char) : headNS (stripWs l) = true :=
  headNS_rstrip (headNS_lstrip l)

theorem lastNS_strip (l : List Char) : lastNS (stripWs l) = true :=
  lastNS_rstrip _

theorem noWsRun_strip {l : List Char} (h : noWsRun l = true) : noWsRun (stripWs l) = true :=
  noWsRun_rstrip _ (noWsRun_lstrip l h)

theorem strip_eq_self {l : List Char} (h1 : headNS l = true) (h2 : lastNS l = true) :
    stripWs l = l := by
  rw [stripWs, lstrip_eq_self h1, rstrip_eq_self l h2]

theorem allowedChar_space : allowedChar ' ' = true := by decide

theorem mem_cleanChars_allowed {c : Char} {l : List Char} (h : c ∈ cleanChars l) :
    allowedChar c = true :=
  List.of_mem_filter (mem_strip h)

theorem mem_collapse_allowed {c : Char} {l : List Char}
    (hall : ∀ d ∈ l, allowedChar d = true) (h : c ∈ collapseWs l) :
    allowedChar c = true := by
  rcases mem_collapseGo false l h with h1 | h1
  · rw [h1]; exact allowedChar_space
  · exact hall c h1

theorem cleanChars_allAllowed {l : List Char} (hall : ∀ d ∈ l, allowedChar d = true) :
    cleanChars l = stripWs (collapseWs l) := by
  rw [cleanChars]
  congr 1
  exact List.filter_eq_self.mpr (fun c hc => mem_collapse_allowed hall hc)

theorem cleanChars_eq_self {l : List Char}
    (hall : ∀ d ∈ l, allowedChar d = true)
    (hsp : ∀ d ∈ l, isPySpace d = true → d = ' ')
    (hrun : noWsRun l = true)
    (hhead : headNS l = true) (hlast : lastNS l = true) :
    cleanChars l = l := by
  have hfilter : (collapseWs l).filter allowedChar = collapseWs l :=
    List.filter_eq_self.mpr (fun c hc => mem_collapse_allowed hall hc)
  rw [cleanChars, hfilter, collapseWs, collapseGo_eq_self l hsp hrun,
    strip_eq_self hhead hlast]

theorem stringMk_eq_empty_iff (l : List Char) : String.mk l = "" ↔ l = [] := by
  constructor
  · intro h
    have : (String.mk l).data = ("" : String).data := by rw [h]
    simpa using this
  · intro h; rw [h]

theorem clean_text_stable_of_allAllowed (y : List Char)
    (hall : ∀ d ∈ y, allowedChar d = true) :
    clean_text (clean_text (String.mk y)) = clean_text (String.mk y) := by
  by_cases hy : String.mk y = ""
  · rw [hy]; rfl
  · have hclean : clean_text (String.mk y) = String.mk (stripWs (collapseWs y)) := by
      rw [clean_text, if_neg hy]
      rw [cleanChars_allAllowed hall]
    set z := stripWs (collapseWs y) with hz
    rw [hclean]
    by_cases hznil : String.mk z = ""
    · rw [hznil]; rfl
    · rw [clean_text, if_neg hznil]
      have hzdata : (String.mk z).data = z := rfl
      rw [hzdata]
      have hall_z : ∀ d ∈ z, allowedChar d = true := fun d hd =>
        mem_collapse_allowed hall (mem_strip hd)
      have hsp_z : ∀ d ∈ z, isPySpace d = true → d = ' ' := fun d hd =>
        space_of_mem_collapseGo false y (mem_strip hd)
      have hrun_z : noWsRun z = true := noWsRun_strip (noWsRun_collapseGo false y)
      have hhead_z : headNS z = true := headNS_strip _
      have hlast_z : lastNS z = true := lastNS_strip _
      rw [cleanChars_eq_self hall_z hsp_z hrun_z hhead_z hlast_z]

/-- Claim C3 is false on the code: `clean_text` is not idempotent.  On
`"a $ b"` the first pass deletes the disallowed `$` between two single
spaces, leaving the double space `"a  b"`; a second pass collapses it to
`"a b"`. -/
theorem claim_C3_counterexample :
    clean_text (clean_text "a $ b") ≠ clean_text "a $ b" := by decide

/-- Claim C3 (amended): `clean_text` composed with itself is idempotent —
applying `clean_text` three times yields exactly the result of applying it
twice, for every input; a single application is a fixed point only when no
disallowed-character deletion can merge two whitespace runs. -/
theorem claim_C3_clean_text_twice_stable (x : String) :
    clean_text (clean_text (clean_text x)) = clean_text (clean_text x) := by
  have hall : ∀ d ∈ (clean_text x).data, allowedChar d = true := by
    by_cases hx : x = ""
    · rw [hx]
      intro d hd
      simp [clean_text] at hd
    · rw [clean_text, if_neg hx]
      intro d hd
      exact mem_cleanChars_allowed hd
  exact clean_text_stable_of_allAllowed (clean_text x).data hall


/-! ## Generic lemmas about the stable insertion sorts -/

theorem insDesc_perm (key : α → Nat) (x : α) : ∀ l : List α, (insDesc key x l).Perm (x :: l)
  | [] => List.Perm.refl _
  | y :: rest => by
    rw [insDesc]
    by_cases h : key y < key x
    · rw [if_pos h]
    · rw [if_neg h]
      exact ((insDesc_perm key x rest).cons y).trans (List.Perm.swap x y rest)

theorem foldl_insDesc_perm (key : α → Nat) : ∀ (l acc : List α),
    (l.foldl (fun a x => insDesc key x a) acc).Perm (acc ++ l)
  | [], acc => by simp
  | x :: l, acc => by
    rw [List.foldl_cons]
    have h1 := foldl_insDesc_perm key l (insDesc key x acc)
    have h2 : (insDesc key x acc ++ l).Perm ((x :: acc) ++ l) :=
      (insDesc_perm key x acc).append_right l
    have h3 : ((x :: acc) ++ l).Perm (acc ++ x :: l) := by
      simp only [List.cons_append]
      exact List.perm_middle.symm
    exact (h1.trans h2).trans h3

theorem sortDesc_perm (key : α → Nat) (l : List α) : (sortDesc key l).Perm l := by
  simpa using foldl_insDesc_perm key l []

theorem insAsc_perm (key : α → Nat) (x : α) : ∀ l : List α, (insAsc key x l).Perm (x :: l)
  | [] => List.Perm.refl _
  | y :: rest => by
    rw [insAsc]
    by_cases h : key x < key y
    · rw [if_pos h]
    · rw [if_neg h]
      exact ((insAsc_perm key x rest).cons y).trans (List.Perm.swap x y rest)

theorem foldl_insAsc_perm (key : α → Nat) : ∀ (l acc : List α),
    (l.foldl (fun a x => insAsc key x a) acc).Perm (acc ++ l)
  | [], acc => by simp
  | x :: l, acc => by
    rw [List.foldl_cons]
    have h1 := foldl_insAsc_perm key l (insAsc key x acc)
    have h2 : (insAsc key x acc ++ l).Perm ((x :: acc) ++ l) :=
      (insAsc_perm key x acc).append_right l
    have h3 : ((x :: acc) ++ l).Perm (acc ++ x :: l) := by
      simp only [List.cons_append]
      exact List.perm_middle.symm
    exact (h1.trans h2).trans h3

theorem sortAsc_perm (key : α → Nat) (l : List α) : (sortAsc key l).Perm l := by
  simpa using foldl_insAsc_perm key l []

theorem insAsc_pairwise (key : α → Nat) {x : α} : ∀ {l : List α},
    List.Pairwise (fun a b => key a ≤ key b) l →
    List.Pairwise (fun a b => key a ≤ key b) (insAsc key x l)
  | [], _ => by simp [insAsc]
  | y :: rest, h => by
    obtain ⟨hy, hrest⟩ := List.pairwise_cons.mp h
    rw [insAsc]
    by_cases hk : key x < key y
    · rw [if_pos hk]
      refine List.pairwise_cons.mpr ⟨?_, h⟩
      intro z hz
      rcases List.mem_cons.mp hz with h1 | h1
      · exact h1 ▸ Nat.le_of_lt hk
      · exact Nat.le_trans (Nat.le_of_lt hk) (hy z h1)
    · rw [if_neg hk]
      refine List.pairwise_cons.mpr ⟨?_, insAsc_pairwise key hrest⟩
      intro z hz
      rcases List.mem_cons.mp ((insAsc_perm key x rest).mem_iff.mp hz) with h1 | h1
      · exact h1 ▸ Nat.le_of_not_lt hk
      · exact hy z h1

theorem foldl_insAsc_pairwise (key : α → Nat) : ∀ (l acc : List α),
    List.Pairwise (fun a b => key a ≤ key b) acc →
    List.Pairwise (fun a b => key a ≤ key b) (l.foldl (fun a x => insAsc key x a) acc)
  | [], _, h => h
  | x :: l, acc, h => by
    rw [List.foldl_cons]
    exact foldl_insAsc_pairwise key l _ (insAsc_pairwise key h)

theorem sortAsc_pairwise (key : α → Nat) (l : List α) :
    List.Pairwise (fun a b => key a ≤ key b) (sortAsc key l) :=
  foldl_insAsc_pairwise key l [] (List.Pairwise.nil)

theorem insDesc_pairwise_rank (key pos : α → Nat) {x : α} : ∀ {l : List α},
    List.Pairwise (rankBefore key pos) l → (∀ y ∈ l, pos y < pos x) →
    List.Pairwise (rankBefore key pos) (insDesc key x l)
  | [], _, _ => by simp [insDesc]
  | y :: rest, h, hpos => by
    obtain ⟨hy, hrest⟩ := List.pairwise_cons.mp h
    rw [insDesc]
    by_cases hk : key y < key x
    · rw [if_pos hk]
      refine List.pairwise_cons.mpr ⟨?_, h⟩
      intro z hz
      rcases List.mem_cons.mp hz with h1 | h1
      · exact Or.inl (h1 ▸ hk)
      · rcases hy z h1 with h2 | h2
        · exact Or.inl (Nat.lt_trans h2 hk)
        · exact Or.inl (h2.1 ▸ hk)
    · rw [if_neg hk]
      refine List.pairwise_cons.mpr
        ⟨?_, insDesc_pairwise_rank key pos hrest
          (fun z hz => hpos z (List.mem_cons_of_mem _ hz))⟩
      intro z hz
      rcases List.mem_cons.mp ((insDesc_perm key x rest).mem_iff.mp hz) with h1 | h1
      · subst h1
        rcases Nat.lt_or_ge (key z) (key y) with h2 | h2
        · exact Or.inl h2
        · exact Or.inr ⟨Nat.le_antisymm h2 (Nat.le_of_not_lt hk),
            hpos y (List.mem_cons_self _ _)⟩
      · exact hy z h1

theorem foldl_insDesc_pairwise_rank (key pos : α → Nat) : ∀ (l acc : List α),
    List.Pairwise (rankBefore key pos) acc →
    (∀ y ∈ acc, ∀ x ∈ l, pos y < pos x) →
    List.Pairwise (fun a b => pos a < pos b) l →
    List.Pairwise (rankBefore key pos) (l.foldl (fun a x => insDesc key x a) acc)
  | [], _, h, _, _ => h
  | x :: l, acc, h, hacc, hl => by
    obtain ⟨hx, hltail⟩ := List.pairwise_cons.mp hl
    rw [List.foldl_cons]
    refine foldl_insDesc_pairwise_rank key pos l (insDesc key x acc) ?_ ?_ hltail
    · exact insDesc_pairwise_rank key pos h
        (fun y hy => hacc y hy x (List.mem_cons_self _ _))
    · intro y hy z hz
      rcases List.mem_cons.mp ((insDesc_perm key x acc).mem_iff.mp hy) with h1 | h1
      · exact h1 ▸ hx z hz
      · exact hacc y h1 z (List.mem_cons_of_mem _ hz)

theorem sortDesc_pairwise_rank (key pos : α → Nat) (l : List α)
    (hl : List.Pairwise (fun a b => pos a < pos b) l) :
    List.Pairwise (rankBefore key pos) (sortDesc key l) :=
  foldl_insDesc_pairwise_rank key pos l [] List.Pairwise.nil (by simp) hl

theorem nodup_pairwise_idxlt : ∀ {l : List α} [DecidableEq α], l.Nodup →
    List.Pairwise (fun a b => l.indexOf a < l.indexOf b) l := by
  intro l
  induction l with
  | nil => intro _ _; exact List.Pairwise.nil
  | cons x t ih =>
    intro _ h
    obtain ⟨hx, ht⟩ := List.pairwise_cons.mp h
    refine List.pairwise_cons.mpr ⟨?_, ?_⟩
    · intro b hb
      have hbx : x ≠ b := fun e => (hx b hb) (e ▸ rfl)
      rw [List.indexOf_cons_self, List.indexOf_cons_ne _ hbx]
      exact Nat.succ_pos _
    · refine List.Pairwise.imp_of_mem ?_ (ih ht)
      intro a b ha hb hab
      have hax : x ≠ a := fun e => (hx a ha) (e ▸ rfl)
      have hbx : x ≠ b := fun e => (hx b hb) (e ▸ rfl)
      rw [List.indexOf_cons_ne _ hax, List.indexOf_cons_ne _ hbx]
      exact Nat.succ_lt_succ hab

/-! ## Lemmas about the dict / Counter models -/

theorem fst_dictSet (k : String) (v : Nat) : ∀ d : List (String × Nat),
    (dictSet k v d).map Prod.fst =
      if k ∈ d.map Prod.fst then d.map Prod.fst else d.map Prod.fst ++ [k]
  | [] => by simp [dictSet]
  | p :: rest => by
    rw [dictSet]
    by_cases hp : p.1 = k
    · rw [if_pos hp]
      simp [hp]
    · rw [if_neg hp]
      have ih := fst_dictSet k v rest
      by_cases hk : k ∈ rest.map Prod.fst
      · rw [if_pos hk] at ih
        have hmem : k ∈ p.1 :: rest.map Prod.fst := List.mem_cons_of_mem _ hk
        simp only [List.map_cons, ih, if_pos hmem]
      · rw [if_neg hk] at ih
        have hmem : k ∉ p.1 :: rest.map Prod.fst := by
          intro h
          rcases List.mem_cons.mp h with h1 | h1
          · exact hp h1.symm
          · exact hk h1
        simp only [List.map_cons, ih, if_neg hmem, List.cons_append]

theorem fst_bumpCount (k : String) : ∀ d : List (String × Nat),
    (bumpCount d k).map Prod.fst =
      if k ∈ d.map Prod.fst then d.map Prod.fst else d.map Prod.fst ++ [k]
  | [] => by simp [bumpCount]
  | p :: rest => by
    rw [bumpCount]
    by_cases hp : p.1 = k
    · rw [if_pos hp]
      simp [hp]
    · rw [if_neg hp]
      have ih := fst_bumpCount k rest
      by_cases hk : k ∈ rest.map Prod.fst
      · rw [if_pos hk] at ih
        have hmem : k ∈ p.1 :: rest.map Prod.fst := List.mem_cons_of_mem _ hk
        simp only [List.map_cons, ih, if_pos hmem]
      · rw [if_neg hk] at ih
        have hmem : k ∉ p.1 :: rest.map Prod.fst := by
          intro h
          rcases List.mem_cons.mp h with h1 | h1
          · exact hp h1.symm
          · exact hk h1
        simp only [List.map_cons, ih, if_neg hmem, List.cons_append]

theorem nodup_fst_of_update {d : List (String × Nat)} {l' : List String} {k : String}
    (hl : l' = if k ∈ d.map Prod.fst then d.map Prod.fst else d.map Prod.fst ++ [k])
    (h : (d.map Prod.fst).Nodup) : l'.Nodup := by
  subst hl
  by_cases hk : k ∈ d.map Prod.fst
  · rwa [if_pos hk]
  · rw [if_neg hk]
    rw [List.nodup_append]
    refine ⟨h, List.nodup_singleton k, ?_⟩
    intro a ha hb
    rw [List.mem_singleton] at hb
    exact hk (hb ▸ ha)

theorem nodup_fst_dictSet {k : String} {v : Nat} {d : List (String × Nat)}
    (h : (d.map Prod.fst).Nodup) : ((dictSet k v d).map Prod.fst).Nodup :=
  nodup_fst_of_update (fst_dictSet k v d) h

theorem nodup_fst_bumpCount {k : String} {d : List (String × Nat)}
    (h : (d.map Prod.fst).Nodup) : ((bumpCount d k).map Prod.fst).Nodup :=
  nodup_fst_of_update (fst_bumpCount k d) h

theorem fst_mem_dictSet {p : String × Nat} {k : String} {v : Nat} :
    ∀ {d : List (String × Nat)}, p ∈ dictSet k v d → p.1 = k ∨ p.1 ∈ d.map Prod.fst
  | [], h => by
    rw [dictSet, List.mem_singleton] at h
    exact Or.inl (by rw [h])
  | q :: rest, h => by
    rw [dictSet] at h
    by_cases hq : q.1 = k
    · rw [if_pos hq] at h
      rcases List.mem_cons.mp h with h1 | h1
      · exact Or.inl (by rw [h1])
      · exact Or.inr (by
          rw [List.map_cons]
          exact List.mem_cons_of_mem _ (List.mem_map_of_mem Prod.fst h1))
    · rw [if_neg hq] at h
      rcases List.mem_cons.mp h with h1 | h1
      · exact Or.inr (by
          rw [h1, List.map_cons]
          exact List.mem_cons_self _ _)
      · rcases fst_mem_dictSet h1 with h2 | h2
        · exact Or.inl h2
        · exact Or.inr (by
            rw [List.map_cons]
            exact List.mem_cons_of_mem _ h2)

theorem fst_mem_bumpCount {p : String × Nat} {k : String} :
    ∀ {d : List (String × Nat)}, p ∈ bumpCount d k → p.1 = k ∨ p.1 ∈ d.map Prod.fst
  | [], h => by
    rw [bumpCount, List.mem_singleton] at h
    exact Or.inl (by rw [h])
  | q :: rest, h => by
    rw [bumpCount] at h
    by_cases hq : q.1 = k
    · rw [if_pos hq] at h
      rcases List.mem_cons.mp h with h1 | h1
      · exact Or.inl (by rw [h1]; exact hq)
      · exact Or.inr (by
          rw [List.map_cons]
          exact List.mem_cons_of_mem _ (List.mem_map_of_mem Prod.fst h1))
    · rw [if_neg hq] at h
      rcases List.mem_cons.mp h with h1 | h1
      · exact Or.inr (by
          rw [h1, List.map_cons]
          exact List.mem_cons_self _ _)
      · rcases fst_mem_bumpCount h1 with h2 | h2
        · exact Or.inl h2
        · exact Or.inr (by
            rw [List.map_cons]
            exact List.mem_cons_of_mem _ h2)

theorem foldl_bumpCount_fst_mem (P : String → Prop) : ∀ (l : List String)
    (acc : List (String × Nat)), (∀ q ∈ acc, P q.1) → (∀ x ∈ l, P x) →
    ∀ p ∈ l.foldl bumpCount acc, P p.1
  | [], acc, hacc, _, p, hp => hacc p hp
  | x :: l, acc, hacc, hl, p, hp => by
    rw [List.foldl_cons] at hp
    refine foldl_bumpCount_fst_mem P l (bumpCount acc x) ?_
      (fun z hz => hl z (List.mem_cons_of_mem _ hz)) p hp
    intro q hq
    rcases fst_mem_bumpCount hq with h1 | h1
    · exact h1 ▸ hl x (List.mem_cons_self _ _)
    · rcases List.mem_map.mp h1 with ⟨r, hr, he⟩
      exact he ▸ hacc r hr

theorem counterList_fst_mem {l : List String} {p : String × Nat}
    (hp : p ∈ counterList l) : p.1 ∈ l :=
  foldl_bumpCount_fst_mem (fun s => s ∈ l) l [] (by simp) (fun x hx => hx) p hp

theorem foldl_bumpCount_nodup : ∀ (l : List String) (acc : List (String × Nat)),
    (acc.map Prod.fst).Nodup → ((l.foldl bumpCount acc).map Prod.fst).Nodup
  | [], _, h => h
  | x :: l, acc, h => by
    rw [List.foldl_cons]
    exact foldl_bumpCount_nodup l (bumpCount acc x) (nodup_fst_bumpCount h)

theorem counterList_nodup_fst (l : List String) : ((counterList l).map Prod.fst).Nodup :=
  foldl_bumpCount_nodup l [] (by simp)

theorem foldl_dictSet_fst_mem (P : String → Prop) (score : String → Nat) :
    ∀ (l : List String) (acc : List (String × Nat)), (∀ q ∈ acc, P q.1) →
    (∀ x ∈ l, P x) →
    ∀ p ∈ l.foldl (fun a s => dictSet s (score s) a) acc, P p.1
  | [], acc, hacc, _, p, hp => hacc p hp
  | x :: l, acc, hacc, hl, p, hp => by
    rw [List.foldl_cons] at hp
    refine foldl_dictSet_fst_mem P score l (dictSet x (score x) acc) ?_
      (fun z hz => hl z (List.mem_cons_of_mem _ hz)) p hp
    intro q hq
    rcases fst_mem_dictSet hq with h1 | h1
    · exact h1 ▸ hl x (List.mem_cons_self _ _)
    · rcases List.mem_map.mp h1 with ⟨r, hr, he⟩
      exact he ▸ hacc r hr

theorem foldl_dictSet_nodup (score : String → Nat) : ∀ (l : List String)
    (acc : List (String × Nat)), (acc.map Prod.fst).Nodup →
    ((l.foldl (fun a s => dictSet s (score s) a) acc).map Prod.fst).Nodup
  | [], _, h => h
  | x :: l, acc, h => by
    rw [List.foldl_cons]
    exact foldl_dictSet_nodup score l (dictSet x (score x) acc) (nodup_fst_dictSet h)

/-! ## Lemmas about the Summarizer (claims C1, C10) -/

theorem summaryList_core (ss tok : String → List String) (text : String) (maxS : Nat) :
    (∀ s ∈ summaryList ss tok text maxS, s ∈ ss text) ∧
    (summaryList ss tok text maxS).length ≤ maxS ∧
    (summaryList ss tok text maxS).Nodup ∧
    List.Pairwise (fun a b => (ss text).indexOf a < (ss text).indexOf b)
      (summaryList ss tok text maxS) := by
  by_cases htext : text = ""
  · simp [summaryList, htext]
  · rw [summaryList, if_neg htext]
    set sentences := ss text with hsent
    set A := sentenceScoresOf ss tok text with hA
    set key2 : String × Nat → Nat := fun p => p.2 with hkey2
    set keyIdx : String × Nat → Nat := fun p => sentences.indexOf p.1 with hkeyIdx
    set B := sortDesc key2 A with hB
    set C := B.take maxS with hC
    set D := sortAsc keyIdx C with hD
    have hBA : B.Perm A := sortDesc_perm key2 A
    have hCB : List.Sublist C B := List.take_sublist maxS B
    have hDC : D.Perm C := sortAsc_perm keyIdx C
    have hAmem : ∀ p ∈ A, p.1 ∈ sentences := by
      intro p hp
      exact foldl_dictSet_fst_mem (fun s => s ∈ sentences)
        (fun s => sentenceScore tok (tok (pyLower text)) s) sentences [] (by simp)
        (fun x hx => hx) p hp
    have hDmem : ∀ p ∈ D, p.1 ∈ sentences := by
      intro p hp
      exact hAmem p (hBA.mem_iff.mp (hCB.mem (hDC.mem_iff.mp hp)))
    have hAnodup : (A.map Prod.fst).Nodup :=
      foldl_dictSet_nodup (fun s => sentenceScore tok (tok (pyLower text)) s)
        sentences [] (by simp)
    have hDnodup : (D.map Prod.fst).Nodup := by
      have h1 : (B.map Prod.fst).Nodup := ((hBA.map Prod.fst).nodup_iff).mpr hAnodup
      have h2 : (C.map Prod.fst).Nodup := h1.sublist (hCB.map Prod.fst)
      exact ((hDC.map Prod.fst).nodup_iff).mpr h2
    refine ⟨?_, ?_, ?_, ?_⟩
    · intro s hs
      rcases List.mem_map.mp hs with ⟨p, hp, he⟩
      exact he ▸ hDmem p hp
    · rw [List.length_map, hDC.length_eq]
      exact List.length_take_le maxS B
    · exact hDnodup
    · have hle : List.Pairwise (fun p q => keyIdx p ≤ keyIdx q) D :=
        sortAsc_pairwise keyIdx C
      have hle' : List.Pairwise (fun p q => p ∈ D ∧ q ∈ D ∧ keyIdx p ≤ keyIdx q) D :=
        List.Pairwise.and_mem.mp hle
      have hne : List.Pairwise (fun p q : String × Nat => p.1 ≠ q.1) D :=
        List.pairwise_map.mp hDnodup
      have hlt : List.Pairwise (fun p q => keyIdx p < keyIdx q) D := by
        refine List.Pairwise.imp ?_ (hle'.and hne)
        rintro p q ⟨⟨hp, hq, hpq⟩, hne'⟩
        rcases Nat.lt_or_ge (keyIdx p) (keyIdx q) with h1 | h1
        · exact h1
        · have heq : keyIdx p = keyIdx q := Nat.le_antisymm hpq h1
          have := (List.indexOf_inj (hDmem p hp) (hDmem q hq)).mp heq
          exact absurd this hne'
      exact List.pairwise_map.mpr hlt

/-- Claim C1: for every input text and configured maximum `maxS`, the
sentences selected by the Summarizer (`generate_summary`, whose selected
sentence sequence is `summaryList`) all come from the document's sentence
sequence `ss text`, appear in strictly increasing order of their (first
occurrence) position in that sequence regardless of score order, and number
at most `maxS`. -/
theorem claim_C1_summary_subset_order_bound (ss tok : String → List String)
    (text : String) (maxS : Nat) :
    (∀ s ∈ summaryList ss tok text maxS, s ∈ ss text) ∧
    List.Pairwise (fun a b => (ss text).indexOf a < (ss text).indexOf b)
      (summaryList ss tok text maxS) ∧
    (summaryList ss tok text maxS).length ≤ maxS := by
  obtain ⟨h1, h2, _, h4⟩ := summaryList_core ss tok text maxS
  exact ⟨h1, h4, h2⟩

/-- Claim C10 (implicit): `generate_summary` keys sentence scores by sentence
text, so the summary contains at most one copy of each distinct sentence text
(`Nodup`), each selected sentence is placed by its first occurrence's
position (strictly increasing `indexOf`), and when the document contains
duplicate sentence texts the summary can contain fewer sentences than the
minimum of the configured maximum and the document's sentence count, as the
concrete two-copy document shows. -/
theorem claim_C10_summary_dedup_by_text :
    (∀ (ss tok : String → List String) (text : String) (maxS : Nat),
      (summaryList ss tok text maxS).Nodup ∧
      List.Pairwise (fun a b => (ss text).indexOf a < (ss text).indexOf b)
        (summaryList ss tok text maxS)) ∧
    summaryList ssDup tokOne "A. A." 2 = ["A."] ∧
    (summaryList ssDup tokOne "A. A." 2).length < min 2 (ssDup "A. A.").length := by
  refine ⟨?_, by decide, by decide⟩
  intro ss tok text maxS
  obtain ⟨_, _, h3, h4⟩ := summaryList_core ss tok text maxS
  exact ⟨h3, h4⟩


theorem nodup_pairwise_posIn [DecidableEq α] {l : List α} (h : l.Nodup) :
    List.Pairwise (fun a b => posIn l a < posIn l b) l :=
  nodup_pairwise_idxlt h

/-! ## Lemmas about `extract_keywords` (claims C5, C6) -/

theorem rankBefore_le {key pos : α → Nat} {a b : α} (h : rankBefore key pos a b) :
    key b ≤ key a := by
  rcases h with h | h
  · exact Nat.le_of_lt h
  · exact Nat.le_of_eq h.1.symm

/-- Claim C6: for every (reachable) filtered FrequencyTable and top-N, the
KeywordRanker `extract_keywords` returns at most `topN` (term, count) pairs,
their counts are monotonically non-increasing, ties between equal counts are
broken by first-insertion order into the filtered FrequencyTable
(`filteredCounter`, whose entry order is first-insertion order), and empty
input yields an empty sequence. -/
theorem claim_C6_keyword_ranking (tok : String → List String) (lem : String → String)
    (text : String) (topN : Nat) :
    (extract_keywords tok lem text topN).length ≤ topN ∧
    List.Pairwise (fun a b : String × Nat => b.2 ≤ a.2)
      (extract_keywords tok lem text topN) ∧
    List.Pairwise
      (rankBefore (fun p : String × Nat => p.2)
        (posIn (filteredCounter tok lem text)))
      (extract_keywords tok lem text topN) ∧
    extract_keywords tok lem "" topN = [] := by
  have hrank : List.Pairwise
      (rankBefore (fun p : String × Nat => p.2)
        (posIn (filteredCounter tok lem text)))
      (extract_keywords tok lem text topN) := by
    by_cases htext : text = ""
    · simp [extract_keywords, htext]
    · rw [extract_keywords, if_neg htext]
      have hnodup : (filteredCounter tok lem text).Nodup :=
        List.Nodup.of_map Prod.fst (counterList_nodup_fst _)
      have hidx := nodup_pairwise_posIn hnodup
      have hsorted := sortDesc_pairwise_rank (fun p : String × Nat => p.2)
        (posIn (filteredCounter tok lem text))
        (filteredCounter tok lem text) hidx
      exact hsorted.sublist (List.take_sublist topN _)
  refine ⟨?_, ?_, hrank, rfl⟩
  · by_cases htext : text = ""
    · simp [extract_keywords, htext]
    · rw [extract_keywords, if_neg htext]
      exact List.length_take_le topN _
  · exact hrank.imp rankBefore_le

/-- Claim C5 is false on the code: `extract_keywords` filters stopwords and
short tokens BEFORE lemmatizing, and the WordNet lemmatizer can shorten a
kept token below the length bound.  With the recorded real mapping
`lemmatize("oxen") = "ox"` the returned term `"ox"` has length 2. -/
theorem claim_C5_counterexample :
    extract_keywords tokSelf lemOxen "oxen" 10 = [("ox", 1)] ∧
    ("ox" : String).length ≤ 2 := by
  constructor
  · rfl
  · decide

/-- Claim C5 (amended): every term returned by `extract_keywords` is the
lemmatizer's image of a token that is alphanumeric, not a stopword, and of
length `> 2`; consequently, whenever the lemmatizer preserves those filter
properties, no returned (term, frequency) pair has a stopword term or a term
of length `≤ 2`. -/
theorem claim_C5_keyword_exclusion_amended (tok : String → List String)
    (lem : String → String) (text : String) (topN : Nat)
    (hlem : ∀ w : String, pyIsAlnum w = true → w ∉ stopwordsEN → 2 < w.length →
      lem w ∉ stopwordsEN ∧ 2 < (lem w).length) :
    ∀ p ∈ extract_keywords tok lem text topN, p.1 ∉ stopwordsEN ∧ 2 < p.1.length := by
  intro p hp
  by_cases htext : text = ""
  · rw [extract_keywords, if_pos htext] at hp
    exact absurd hp (List.not_mem_nil p)
  · rw [extract_keywords, if_neg htext] at hp
    have hp2 : p ∈ sortDesc (fun p : String × Nat => p.2) (filteredCounter tok lem text) :=
      (List.take_sublist topN _).mem hp
    have hp3 : p ∈ filteredCounter tok lem text :=
      (sortDesc_perm _ _).mem_iff.mp hp2
    have hp4 : p.1 ∈ ((tok (pyLower text)).filter keywordFilter).map lem :=
      counterList_fst_mem hp3
    rcases List.mem_map.mp hp4 with ⟨w, hw, he⟩
    have hfil : keywordFilter w = true := List.of_mem_filter hw
    rw [keywordFilter, Bool.and_eq_true, Bool.and_eq_true] at hfil
    obtain ⟨⟨halnum, hstop⟩, hlen⟩ := hfil
    have hstop' : w ∉ stopwordsEN := by
      intro hmem
      rw [Bool.not_eq_true'] at hstop
      have hc : stopwordsEN.contains w = true := List.elem_eq_true_of_mem hmem
      rw [hstop] at hc
      exact Bool.false_ne_true hc
    have hlen' : 2 < w.length := of_decide_eq_true hlen
    exact he ▸ hlem w halnum hstop' hlen'

/-- Witness for the amended claim C5: with the identity lemmatizer (which
preserves the filter properties) on a concrete text, the returned term
`"hello"` is indeed not a stopword and longer than 2. -/
theorem claim_C5_witness :
    ("hello" : String) ∉ stopwordsEN ∧ 2 < ("hello" : String).length :=
  claim_C5_keyword_exclusion_amended tokSelf id "hello" 5
    (fun _ _ h2 h3 => ⟨h2, h3⟩) ("hello", 1) (by decide)


/-! ## Lemmas about `extract_tables_from_pdf` (claim C2) -/

theorem extractLoop_error {e : String} : ∀ (i : Nat)
    (pages : List (Except String (Option PdfTable))), Except.error e ∈ pages →
    ∃ e', extractLoop i pages = Except.error e'
  | _, [], h => absurd h (List.not_mem_nil _)
  | i, .error e0 :: _, _ => ⟨e0, rfl⟩
  | i, .ok none :: rest, h => by
    have hmem : Except.error e ∈ rest := by
      rcases List.mem_cons.mp h with h1 | h1
      · exact absurd h1 (by intro hx; cases hx)
      · exact h1
    rw [extractLoop]
    exact extractLoop_error (i + 1) rest hmem
  | i, .ok (some t) :: rest, h => by
    have hmem : Except.error e ∈ rest := by
      rcases List.mem_cons.mp h with h1 | h1
      · exact absurd h1 (by intro hx; cases hx)
      · exact h1
    obtain ⟨e', he'⟩ := extractLoop_error (i + 1) rest hmem
    rw [extractLoop, he']
    exact ⟨e', rfl⟩

/-- Claim C2 is false on the code: the `try/except` wraps the whole page
loop, so a detection failure on page 2 of a 3-page document discards the
detected tables of pages 1 and 3 as well — the call returns the empty
dataset, not the other pages' records (which the failure-free run of the
same document does return). -/
theorem claim_C2_counterexample :
    extract_tables_from_pdf pagesFail = [] ∧
    extract_tables_from_pdf pagesOk =
      [⟨[some "h"], [some "r1"], 1⟩, ⟨[some "h"], [some "r3"], 3⟩] := by
  exact ⟨rfl, rfl⟩

/-- Claim C2 (amended): a detection failure on any page makes
`extract_tables_from_pdf` return the empty dataset — no page's records
survive — and the call itself does not raise (the model is a total function
whose `except` branch yields the empty dataframe). -/
theorem claim_C2_failure_empties_dataset
    (pages : List (Except String (Option PdfTable)))
    (h : ∃ e, Except.error e ∈ pages) :
    extract_tables_from_pdf pages = [] := by
  obtain ⟨e, he⟩ := h
  obtain ⟨e', he'⟩ := extractLoop_error 0 pages he
  rw [extract_tables_from_pdf, he']

/-- Witness for the amended claim C2 at the concrete three-page document. -/
theorem claim_C2_witness : extract_tables_from_pdf pagesFail = [] :=
  claim_C2_failure_empties_dataset pagesFail ⟨"detection failed", by
    unfold pagesFail
    exact List.mem_cons_of_mem _ (List.mem_cons_self _ _)⟩

/-! ## Lemmas about `analyze_document_stats` (claims C4, C9) -/

/-- Claim C4 is false on the code: for empty input `analyze_document_stats`
returns the empty dict (modelled `none`) — no fields are present — rather
than a `DocumentStats` with six zero fields. -/
theorem claim_C4_counterexample :
    analyze_document_stats tokSelf tokSelf "" = none ∧
    analyze_document_stats tokSelf tokSelf "" ≠ some ⟨0, 0, 0, 0, 0, 0⟩ := by
  exact ⟨rfl, by decide⟩

/-- Claim C4 (amended): for empty input text `analyze_document_stats`
returns the empty mapping with no fields at all (Python `{}`), without
raising. -/
theorem claim_C4_empty_stats (ss tok : String → List String) :
    analyze_document_stats ss tok "" = none :=
  rfl

theorem splitNN_length : ∀ (l acc : List Char), (splitNN acc l).length = countNN l + 1
  | [], _ => rfl
  | [_], _ => rfl
  | a :: b :: rest, acc => by
    by_cases h : (a = '\n' && b = '\n') = true
    · rw [splitNN, countNN, if_pos h, if_pos h, List.length_cons,
        splitNN_length rest []]
    · rw [splitNN, countNN, if_neg h, if_neg h, splitNN_length (b :: rest) (a :: acc)]

/-- Claim C9: whenever `analyze_document_stats` reports statistics, the
paragraph count equals the number of text blocks separated by a literal
blank line (`specParagraphCount`, modelled from the spec as one more than
the number of `"\n\n"` separators). -/
theorem claim_C9_paragraph_count (ss tok : String → List String) (text : String)
    (st : DocStats) (h : analyze_document_stats ss tok text = some st) :
    st.paragraphs = specParagraphCount text := by
  rw [analyze_document_stats] at h
  by_cases htext : text = ""
  · rw [if_pos htext] at h
    cases h
  · rw [if_neg htext] at h
    rw [Option.some_inj] at h
    rw [← h]
    rw [specParagraphCount, ← splitNN_length text.data []]

/-- Witness for claim C9 at a concrete two-paragraph text. -/
theorem claim_C9_witness :
    (⟨4, 0, 0, 2, 0, 0⟩ : DocStats).paragraphs = specParagraphCount "x\n\ny" :=
  claim_C9_paragraph_count (fun _ => []) (fun _ => []) "x\n\ny" ⟨4, 0, 0, 2, 0, 0⟩ rfl


/-! ## Lemmas about `transform_data` and `analyze_invoice_data` (claims C7, C8) -/

theorem fillCell_isSome : ∀ v : PdCell, (fillCell v).isSome = true
  | none => rfl
  | some _ => rfl

/-- Claim C7: after `transform_data` runs on a non-empty dataset, no cell in
the output frame is missing (every cell `isSome`), and every cell that was
missing in the input holds the literal sentinel string `"N/A"` in the
output. -/
theorem claim_C7_no_missing_cells (df : PdFrame) (h : pdEmpty df = false) :
    (∀ c ∈ transform_data df, ∀ v ∈ c.values, v.isSome = true) ∧
    (∀ (i j : Nat) (c : PdCol), df[i]? = some c → c.values[j]? = some none →
      ∃ c', (transform_data df)[i]? = some c' ∧
        c'.values[j]? = some (some (PdVal.vStr "N/A"))) := by
  have htr : transform_data df =
      df.map (fun c => ⟨normColName c.name, c.dtype, c.values.map fillCell⟩) := by
    rw [transform_data, if_neg (by simp [h])]
  constructor
  · intro c hc v hv
    rw [htr] at hc
    rcases List.mem_map.mp hc with ⟨c0, _, he⟩
    rw [← he] at hv
    rcases List.mem_map.mp hv with ⟨v0, _, hev⟩
    exact hev ▸ fillCell_isSome v0
  · intro i j c hic hjc
    refine ⟨⟨normColName c.name, c.dtype, c.values.map fillCell⟩, ?_, ?_⟩
    · rw [htr, List.getElem?_map, hic]
      rfl
    · show (c.values.map fillCell)[j]? = some (some (PdVal.vStr "N/A"))
      rw [List.getElem?_map, hjc]
      rfl

/-- Witness for claim C7: on the concrete frame with a missing cell, the
filled cell of the transformed frame is present. -/
theorem claim_C7_witness : (some (PdVal.vStr "N/A") : PdCell).isSome = true :=
  (claim_C7_no_missing_cells dfMissing rfl).1
    ⟨"it_em", PdType.tObj, [some (PdVal.vStr "N/A"), some (PdVal.vStr "x")]⟩
    (by rw [show transform_data dfMissing =
        [⟨"it_em", PdType.tObj, [some (PdVal.vStr "N/A"), some (PdVal.vStr "x")]⟩]
      from rfl]
        exact List.mem_singleton_self _)
    (some (PdVal.vStr "N/A")) (List.mem_cons_self _ _)

/-- Claim C8: on every non-empty frame whose dtype tags agree with its
values (a column's pandas dtype is numeric exactly when all its cells hold
integers — true of every frame this program builds), the invoice report
contains, for every all-numeric column, that column's sum, mean, minimum and
maximum; for every column that is not all-numeric, the count of its distinct
values; plus the total row count and the total column count. -/
theorem claim_C8_invoice_report (df : PdFrame) (hne : pdEmpty df = false)
    (hdty : ∀ c ∈ df, (c.dtype = PdType.tNum ↔ c.values.all isIntCell = true)) :
    (∀ c ∈ df, c.values.all isIntCell = true →
      ((c.name ++ "_sum", RVal.rInt (colInts c).sum) ∈ analyze_invoice_data df ∧
       (c.name ++ "_avg",
         RVal.rRat (((colInts c).sum : ℚ) / ((colInts c).length : ℚ))) ∈
           analyze_invoice_data df ∧
       (c.name ++ "_min", RVal.rIntOpt (colInts c).min?) ∈ analyze_invoice_data df ∧
       (c.name ++ "_max", RVal.rIntOpt (colInts c).max?) ∈ analyze_invoice_data df)) ∧
    (∀ c ∈ df, ¬c.values.all isIntCell = true →
      (c.name ++ "_unique_count", RVal.rNat (nuniqueCol c)) ∈ analyze_invoice_data df) ∧
    ("total_rows", RVal.rNat (nRows df)) ∈ analyze_invoice_data df ∧
    ("total_columns", RVal.rNat df.length) ∈ analyze_invoice_data df := by
  have hrep : analyze_invoice_data df =
      (if (df.filter (fun c => c.dtype == PdType.tNum)).isEmpty then []
       else [("numeric_columns",
         RVal.rNames ((df.filter (fun c => c.dtype == PdType.tNum)).map PdCol.name))]) ++
      ((df.filter (fun c => c.dtype == PdType.tNum)).flatMap (fun c =>
        [(c.name ++ "_sum", RVal.rInt (colInts c).sum),
         (c.name ++ "_avg", RVal.rRat (((colInts c).sum : ℚ) / ((colInts c).length : ℚ))),
         (c.name ++ "_min", RVal.rIntOpt (colInts c).min?),
         (c.name ++ "_max", RVal.rIntOpt (colInts c).max?)])) ++
      (df.filter (fun c => c.dtype == PdType.tObj)).map
        (fun c => (c.name ++ "_unique_count", RVal.rNat (nuniqueCol c))) ++
      [("total_rows", RVal.rNat (nRows df)), ("total_columns", RVal.rNat df.length)] := by
    rw [analyze_invoice_data, if_neg (by simp [hne])]
  refine ⟨?_, ?_, ?_, ?_⟩
  · intro c hc hall
    have hcin : c ∈ df.filter (fun c => c.dtype == PdType.tNum) :=
      List.mem_filter.mpr ⟨hc, by simp [(hdty c hc).mpr hall]⟩
    have h4 : ∀ p ∈ [(c.name ++ "_sum", RVal.rInt (colInts c).sum),
        (c.name ++ "_avg", RVal.rRat (((colInts c).sum : ℚ) / ((colInts c).length : ℚ))),
        (c.name ++ "_min", RVal.rIntOpt (colInts c).min?),
        (c.name ++ "_max", RVal.rIntOpt (colInts c).max?)],
        p ∈ analyze_invoice_data df := by
      intro p hp
      rw [hrep]
      refine List.mem_append.mpr (Or.inl ?_)
      refine List.mem_append.mpr (Or.inl ?_)
      refine List.mem_append.mpr (Or.inr ?_)
      exact List.mem_flatMap.mpr ⟨c, hcin, hp⟩
    exact ⟨h4 _ (by simp), h4 _ (by simp), h4 _ (by simp), h4 _ (by simp)⟩
  · intro c hc hnotall
    have hobj : c.dtype = PdType.tObj := by
      cases hd : c.dtype with
      | tNum => exact absurd ((hdty c hc).mp hd) hnotall
      | tObj => rfl
    have hcin : c ∈ df.filter (fun c => c.dtype == PdType.tObj) :=
      List.mem_filter.mpr ⟨hc, by simp [hobj]⟩
    rw [hrep]
    refine List.mem_append.mpr (Or.inl ?_)
    refine List.mem_append.mpr (Or.inr ?_)
    exact List.mem_map.mpr ⟨c, hcin, rfl⟩
  · rw [hrep]
    refine List.mem_append.mpr (Or.inr ?_)
    simp
  · rw [hrep]
    refine List.mem_append.mpr (Or.inr ?_)
    simp

/-- Witness for claim C8 on the concrete two-column frame: the report
contains the total row count. -/
theorem claim_C8_witness :
    ("total_rows", RVal.rNat 2) ∈ analyze_invoice_data dfMixed :=
  (claim_C8_invoice_report dfMixed rfl (by decide)).2.2.1

end PdfDashboard
